import Mathlib

/-
Verification of the temporal-graph core (src/temporalGraph.ts) and the lazy
evaluation engine (src/lazyGraphEngine.ts) of suissa/typescript-temporal-graph.

Shallow embedding conventions:
  * JS timestamps (numbers used only through order comparisons) are `Int`.
  * JS `Map` is an association list (`AssocMap`) with JS `Map` semantics:
    `amSet` replaces in place on an existing key and appends fresh keys, so
    iteration order (`[...m.values()]`) is insertion order, as in JS.
  * `edge.deactivated_at` is `Option Int`; `none` plays `undefined`
    (`?? Infinity` in the source becomes an explicit `match` in predicates).
  * `object-hash` over `{from, to, activated_at}` is modelled as the
    injective function onto the triple itself (`EdgeId = String × String × Int`);
    the source relies on the hash being a stable, collision-free function of
    exactly these three fields.
  * `Date.now()` is an explicit `now : Int` argument of `addTemporalEdge`.
  * Methods that `throw` return `Except GErr _` together with the
    (possibly partially mutated) graph; a thrown error leaves exactly the
    mutations performed before the throw, as in the source.
  * The unbounded recursion of `getValueAt` is given an explicit fuel; running
    out of fuel (`EvalErr.fuelExhausted`) models non-termination / stack
    exhaustion: a call that the source completes succeeds here for every
    sufficiently large fuel, and a call on which the source recurses forever
    exhausts every fuel.
-/

namespace TemporalGraphSpec

/-- Association list standing for a JS `Map`: first component is the key. -/
abbrev AssocMap (α β : Type) := List (α × β)

/-- `Map.prototype.get`. -/
def amGet [DecidableEq α] : AssocMap α β → α → Option β
  | [], _ => none
  | p :: rest, k => if p.1 = k then some p.2 else amGet rest k

/-- `Map.prototype.set`: replaces in place when the key is present, appends otherwise. -/
def amSet [DecidableEq α] : AssocMap α β → α → β → AssocMap α β
  | [], k, v => [(k, v)]
  | p :: rest, k, v => if p.1 = k then (k, v) :: rest else p :: amSet rest k v

/-- Keys of the map, in iteration order. -/
def amKeys (m : AssocMap α β) : List α := m.map Prod.fst

/-- `[...m.values()]`, in iteration order. -/
def amValues (m : AssocMap α β) : List β := m.map Prod.snd

/-- `Set.prototype.add` on a JS `Set` modelled as a duplicate-free list. -/
def setAdd [DecidableEq α] (s : List α) (x : α) : List α :=
  if x ∈ s then s else s ++ [x]

/-- Errors thrown by the entity store (src/errors is imported by the source;
only the error identity matters here, payloads are abridged to the id).
`indexMissing` models the `this.adjacency.get(fromId)!` non-null assertion
failing, which cannot happen in well-formed states. -/
inductive GErr where
  | nodeAlreadyExists (id : String)
  | nodeDoesntExist (id : String)
  | indexMissing (id : String)
deriving DecidableEq

/-- `TemporalNode<T> = { id, data }`. -/
structure TemporalNode (ν : Type) where
  id : String
  data : ν
deriving DecidableEq

/-- Stable edge identity computed from `(from, to, activated_at)`. -/
abbrev EdgeId := String × String × Int

/-- `TemporalEdge<T>`; `from_` is the source's `from` field (`from` is a Lean
keyword), `to_` the source's `to`. -/
structure TemporalEdge (ε : Type) where
  id : EdgeId
  from_ : String
  to_ : String
  created_at : Int
  activated_at : Int
  deactivated_at : Option Int
  data : Option ε
deriving DecidableEq

/-- `class TemporalGraph<NodeData, EdgeData>` private state plus the
constructor-supplied identity function. -/
structure TemporalGraph (ν ε : Type) where
  identityFn : ν → String
  nodes : AssocMap String (TemporalNode ν) := []
  edges : AssocMap EdgeId (TemporalEdge ε) := []
  adjacency : AssocMap String (List EdgeId) := []

variable {ν ε : Type}

/-- `getNode`. -/
def getNode (g : TemporalGraph ν ε) (id : String) : Option (TemporalNode ν) :=
  amGet g.nodes id

/-- `hasNode`. -/
def hasNode (g : TemporalGraph ν ε) (id : String) : Bool :=
  (amGet g.nodes id).isSome

/-- `getAllNodes`. -/
def getAllNodes (g : TemporalGraph ν ε) : List (TemporalNode ν) :=
  amValues g.nodes

/-- `getAllEdges`. -/
def getAllEdges (g : TemporalGraph ν ε) : List (TemporalEdge ε) :=
  amValues g.edges

/-- `insertNode`: computes the id, throws `NodeAlreadyExistsError` when
present, otherwise stores the node and (when absent) initializes an empty
adjacency set. Returned graph is the state after the call (unchanged when
the error is thrown, since the throw precedes every mutation). -/
def insertNode (g : TemporalGraph ν ε) (data : ν) :
    Except GErr (TemporalNode ν) × TemporalGraph ν ε :=
  let id := g.identityFn data
  match amGet g.nodes id with
  | some _existing => (.error (.nodeAlreadyExists id), g)
  | none =>
    let node : TemporalNode ν := ⟨id, data⟩
    let g1 : TemporalGraph ν ε := { g with nodes := amSet g.nodes id node }
    if (amGet g1.adjacency id).isSome then (.ok node, g1)
    else (.ok node, { g1 with adjacency := amSet g1.adjacency id [] })

/-- `addTemporalEdge` (the `string` branch of the `string | NodeData` union:
every caller in the repository passes node ids). The edge is written to the
edge table before the adjacency index is touched, exactly as in the source,
so the `indexMissing` branch leaves the edge inserted but unindexed. -/
def addTemporalEdge (g : TemporalGraph ν ε) (fromId toId : String)
    (activated_at : Int) (data : Option ε) (deactivated_at : Option Int)
    (now : Int) : Except GErr (TemporalEdge ε) × TemporalGraph ν ε :=
  if hasNode g fromId = false then (.error (.nodeDoesntExist fromId), g)
  else if hasNode g toId = false then (.error (.nodeDoesntExist toId), g)
  else
    let id : EdgeId := (fromId, toId, activated_at)
    let edge : TemporalEdge ε :=
      ⟨id, fromId, toId, now, activated_at, deactivated_at, data⟩
    let g1 : TemporalGraph ν ε := { g with edges := amSet g.edges id edge }
    match amGet g1.adjacency fromId with
    | none => (.error (.indexMissing fromId), g1)
    | some s =>
      (.ok edge, { g1 with adjacency := amSet g1.adjacency fromId (setAdd s id) })

/-- `deactivateEdge`: silent no-op on an unknown id, otherwise sets
`deactivated_at = timestamp` in place (no validation against `activated_at`). -/
def deactivateEdge (g : TemporalGraph ν ε) (edgeId : EdgeId) (timestamp : Int) :
    TemporalGraph ν ε :=
  match amGet g.edges edgeId with
  | none => g
  | some e =>
    { g with edges := amSet g.edges edgeId { e with deactivated_at := some timestamp } }

/-- The filter body of `getActiveEdgesAt`:
`start <= time && time <= (deactivated_at ?? Infinity)`. -/
def activeB (e : TemporalEdge ε) (time : Int) : Bool :=
  decide (e.activated_at ≤ time) &&
    (match e.deactivated_at with
     | some d => decide (time ≤ d)
     | none => true)

/-- `getActiveEdgesAt`. -/
def getActiveEdgesAt (g : TemporalGraph ν ε) (time : Int) : List (TemporalEdge ε) :=
  (amValues g.edges).filter (fun e => activeB e time)

/-- The filter body of `getEdgesInInterval`:
`(deactivated_at ?? Infinity) >= start && activated_at <= end`. -/
def overlapB (e : TemporalEdge ε) (start_ end_ : Int) : Bool :=
  (match e.deactivated_at with
   | some d => decide (start_ ≤ d)
   | none => true) && decide (e.activated_at ≤ end_)

/-- `getEdgesInInterval`. -/
def getEdgesInInterval (g : TemporalGraph ν ε) (start_ end_ : Int) :
    List (TemporalEdge ε) :=
  (amValues g.edges).filter (fun e => overlapB e start_ end_)

/-- Adjacency read inside `getOutgoingEdges`, after the existence check:
collects the edges found in the edge table for the ids of the node's set. -/
def outgoingCore (g : TemporalGraph ν ε) (nodeId : String) : List (TemporalEdge ε) :=
  match amGet g.adjacency nodeId with
  | none => []
  | some s => s.filterMap (amGet g.edges)

/-- `getOutgoingEdges`: throws `NodeDoesntExistError` when the node is absent. -/
def getOutgoingEdges (g : TemporalGraph ν ε) (nodeId : String) :
    Except GErr (List (TemporalEdge ε)) :=
  if hasNode g nodeId = false then .error (.nodeDoesntExist nodeId)
  else .ok (outgoingCore g nodeId)

/-- Time extended with `-Infinity`, the initial BFS arrival bound. -/
inductive TimeExt where
  | negInf
  | fin (t : Int)
deriving DecidableEq

/-- Order test on extended time: `a <= b`. -/
def TimeExt.leB : TimeExt → TimeExt → Bool
  | .negInf, _ => true
  | .fin _, .negInf => false
  | .fin a, .fin b => decide (a ≤ b)

/-- One BFS state entry `{ node, time, path }`. -/
abbrev TspEntry := String × TimeExt × List String

/-- The `while (queue.length)` loop of `temporalShortestPath`, with explicit
fuel. The loop always terminates in the source (each node is expanded at most
once); `temporalShortestPath` passes fuel exceeding the possible number of
iterations, and the soundness theorem holds for every fuel. `none` covers both
the source's `null` and fuel exhaustion. -/
def tspLoop (g : TemporalGraph ν ε) (endId : String) :
    Nat → List String → List TspEntry → Option (List String)
  | 0, _, _ => none
  | _ + 1, _, [] => none
  | n + 1, visited, entry :: rest =>
    let node := entry.1
    let time := entry.2.1
    let path := entry.2.2
    if node = endId then some path
    else if node ∈ visited then tspLoop g endId n visited rest
    else
      let pushes : List TspEntry :=
        (match amGet g.adjacency node with
         | none => []
         | some ids => ids).filterMap (fun id =>
          match amGet g.edges id with
          | none => none
          | some e =>
            if TimeExt.leB time (.fin e.activated_at) then
              some (e.to_, .fin e.activated_at, path ++ [e.to_])
            else none)
      tspLoop g endId n (node :: visited) (rest ++ pushes)

/-- Fuel large enough for the loop to run to its natural end. -/
def tspFuel (g : TemporalGraph ν ε) : Nat :=
  (g.nodes.length + 1) * (g.edges.length + 1) + 1

/-- `temporalShortestPath`: throws when either endpoint is absent, otherwise
runs the time-respecting BFS from `(start, -Infinity, [start])`. -/
def temporalShortestPath (g : TemporalGraph ν ε) (start endId : String) :
    Except GErr (Option (List String)) :=
  if hasNode g start = false then .error (.nodeDoesntExist start)
  else if hasNode g endId = false then .error (.nodeDoesntExist endId)
  else .ok (tspLoop g endId (tspFuel g) [] [(start, .negInf, [start])])

/-! Lazy evaluation engine (src/lazyGraphEngine.ts). -/

/-- The `'SOURCE' | 'COMPUTED'` discriminator. -/
inductive NodeType where
  | SOURCE
  | COMPUTED
deriving DecidableEq

/-- `LazyNodeData`; `value` is the source value, `compute` the formula of a
computed node, `cache` the per-timestamp memo table. Numeric values are `Int`
(the repository only ever adds and stores them). -/
structure LazyNodeData where
  name : String
  type : NodeType
  value : Option Int
  compute : Option (List Int → Int)
  cache : AssocMap Int Int

/-- The engine's graph type: the temporal graph instantiated at
`LazyNodeData`, with no edge metadata (`addDependency` passes `undefined`). -/
abbrev LGraph := TemporalGraph LazyNodeData Unit

/-- Engine construction: `new TemporalGraph<LazyNodeData>(data => data.name)`. -/
def lazyInit : LGraph :=
  { identityFn := fun d => d.name }

/-- `createSource`. -/
def createSource (g : LGraph) (name : String) (initialValue : Int) :
    Except GErr (TemporalNode LazyNodeData) × LGraph :=
  insertNode g ⟨name, .SOURCE, some initialValue, none, []⟩

/-- `createComputed`. -/
def createComputed (g : LGraph) (name : String) (formula : List Int → Int) :
    Except GErr (TemporalNode LazyNodeData) × LGraph :=
  insertNode g ⟨name, .COMPUTED, none, some formula, []⟩

/-- `addDependency(fromNode, toNode, startAt, endAt?)`. -/
def addDependency (g : LGraph) (fromNode toNode : String) (startAt : Int)
    (endAt : Option Int) (now : Int) : Except GErr (TemporalEdge Unit) × LGraph :=
  addTemporalEdge g fromNode toNode startAt none endAt now

/-- Failure modes of `getValueAt`: the engine's own `throw new Error` on a
missing node, and `fuelExhausted`, the embedding's marker for the call still
running (the source has no recursion guard, so a dependency cycle makes it
recurse without bound; every finite fuel is then exhausted). -/
inductive EvalErr where
  | nodeNotFound (id : String)
  | fuelExhausted
deriving DecidableEq

/-- Node data looked up through the store, as `getValueAt` sees it
(`this.graph.getNode(nodeId)` followed by `.data`). -/
def lookupD (g : LGraph) (nodeId : String) : Option LazyNodeData :=
  (getNode g nodeId).map TemporalNode.data

/-- Rewrites one node wrapper with an extra cache entry. -/
def cacheUpd (t v : Int) (node : TemporalNode LazyNodeData) :
    TemporalNode LazyNodeData :=
  ⟨node.id, { node.data with cache := amSet node.data.cache t v }⟩

/-- In-place `nodeData.cache.set(time, result)`: the node's data object is
aliased from the node table, so mutating its cache updates the stored node. -/
def setCacheG (g : LGraph) (nodeId : String) (t : Int) (v : Int) : LGraph :=
  { g with
    nodes := g.nodes.map (fun p =>
      if p.1 = nodeId then (p.1, cacheUpd t v p.2) else p) }

/-- Sequential evaluation of the active dependencies:
`activeDependencies.map(edge => this.getValueAt(edge.to, time))`, with the
engine state threaded through the calls and the compute-invocation counts
summed. `f` is the one-step-smaller-fuel recursive evaluator. -/
def depsFold (f : LGraph → String → Except EvalErr (Int × LGraph × Nat)) :
    List (TemporalEdge Unit) → LGraph → Except EvalErr (List Int × LGraph × Nat)
  | [], g => .ok ([], g, 0)
  | e :: rest, g =>
    match f g e.to_ with
    | .error err => .error err
    | .ok (v, g1, c1) =>
      match depsFold f rest g1 with
      | .error err => .error err
      | .ok (vs, g2, c2) => .ok (v :: vs, g2, c1 + c2)

/-- `getValueAt(nodeId, time)` with explicit recursion fuel. The returned
triple is (value, engine state after the call, number of invocations of
`compute` functions performed during the call). Follows the source step by
step: source nodes return `value ?? 0`; computed nodes consult the
per-timestamp cache, otherwise evaluate the dependencies active at `time`
(via `getOutgoingEdges` plus the inline interval filter), apply `compute`
(result `0` when it is absent), store the result in the cache and return it. -/
def getValueAt : Nat → LGraph → String → Int → Except EvalErr (Int × LGraph × Nat)
  | 0, _, _, _ => .error .fuelExhausted
  | n + 1, g, nodeId, t =>
    match lookupD g nodeId with
    | none => .error (.nodeNotFound nodeId)
    | some nd =>
      match nd.type with
      | .SOURCE => .ok (nd.value.getD 0, g, 0)
      | .COMPUTED =>
        match amGet nd.cache t with
        | some v => .ok (v, g, 0)
        | none =>
          match getOutgoingEdges g nodeId with
          | .error _ => .error (.nodeNotFound nodeId)
          | .ok outEdges =>
            let deps := outEdges.filter (fun e => activeB e t)
            match depsFold (fun g1 id1 => getValueAt n g1 id1 t) deps g with
            | .error err => .error err
            | .ok (vs, g1, c1) =>
              match nd.compute with
              | some f =>
                .ok (f vs, setCacheG g1 nodeId t (f vs), c1 + 1)
              | none => .ok (0, setCacheG g1 nodeId t 0, c1)

/-- `invalidateCache(nodeId)`: clears the node's whole cache, no-op when the
node is absent. -/
def invalidateCache (g : LGraph) (nodeId : String) : LGraph :=
  match getNode g nodeId with
  | none => g
  | some node =>
    { g with
      nodes := g.nodes.map (fun p =>
        if p.1 = nodeId then (p.1, ⟨node.id, { node.data with cache := [] }⟩)
        else p) }

/-- The dependencies of `nodeId` active at `t`, as enumerated inside
`getValueAt` once the node is known to exist. -/
def lazyActiveDeps (g : LGraph) (nodeId : String) (t : Int) :
    List (TemporalEdge Unit) :=
  (outgoingCore g nodeId).filter (fun e => activeB e t)

/-- Node-data agreement up to the memo cache. -/
def skelD (d d' : LazyNodeData) : Prop :=
  d.name = d'.name ∧ d.type = d'.type ∧ d.value = d'.value ∧ d.compute = d'.compute

/-- Option-level `skelD`, with agreement of the wrapper ids. -/
def skelN : Option (TemporalNode LazyNodeData) →
    Option (TemporalNode LazyNodeData) → Prop
  | none, none => True
  | some x, some y => x.id = y.id ∧ skelD x.data y.data
  | _, _ => False

/-- Two engine states agree except possibly on memo caches. `getValueAt` only
ever grows caches, so it relates its input and output states by `SameSkel`. -/
def SameSkel (g g' : LGraph) : Prop :=
  g'.identityFn = g.identityFn ∧ g'.edges = g.edges ∧ g'.adjacency = g.adjacency ∧
  ∀ id : String, skelN (getNode g id) (getNode g' id)

/-! Specification-side predicates, written from the spec's words, to be
compared with the behaviour of the source-derived definitions above. -/

/-- Spec wording for point activity: `activated_at ≤ time ≤ (deactivated_at ?? +∞)`,
both bounds inclusive, an absent `deactivated_at` treated as `+∞`. -/
def activeSpec (e : TemporalEdge ε) (time : Int) : Prop :=
  match e.deactivated_at with
  | some d => e.activated_at ≤ time ∧ time ≤ d
  | none => e.activated_at ≤ time

/-- Spec wording for window overlap: `(deactivated_at ?? +∞) ≥ t0 AND activated_at ≤ t1`. -/
def overlapSpec (e : TemporalEdge ε) (t0 t1 : Int) : Prop :=
  (match e.deactivated_at with
   | some d => t0 ≤ d
   | none => True) ∧ e.activated_at ≤ t1

/-- The inclusive intervals `[a, d?∞]` and `[t0, t1]` share a point
(touching endpoints count): `max a t0 ≤ min (d?∞) t1`. -/
def intervalsIntersect (a : Int) (d : Option Int) (t0 t1 : Int) : Prop :=
  max a t0 ≤ (match d with
              | some b => min b t1
              | none => t1)

/-- The edge's own activation interval is non-degenerate
(`activated_at ≤ deactivated_at`, assumed but not validated by the source). -/
def edgeIntervalWf (e : TemporalEdge ε) : Prop :=
  match e.deactivated_at with
  | some d => e.activated_at ≤ d
  | none => True

/-! State invariants of the store. -/

/-- The invariant of claim C10: every stored edge's endpoints are present in
the node table, every node id has an adjacency entry, and every stored edge's
id is a member of the adjacency set of its `from` node. -/
def Invariant (g : TemporalGraph ν ε) : Prop :=
  (∀ e ∈ getAllEdges g, hasNode g e.from_ = true ∧ hasNode g e.to_ = true) ∧
  (∀ p ∈ g.nodes, (amGet g.adjacency p.1).isSome = true) ∧
  (∀ q ∈ g.edges, q.2.id ∈ (amGet g.adjacency q.2.from_).getD [])

instance (g : TemporalGraph ν ε) : Decidable (Invariant g) := by
  unfold Invariant
  infer_instance

/-- Every id listed in a node's adjacency set that resolves to a stored edge
resolves to an edge leaving that node. Holds in every reachable state; the
BFS soundness theorem assumes it. -/
def AdjSoundB (g : TemporalGraph ν ε) : Bool :=
  g.adjacency.all (fun p =>
    p.2.all (fun id =>
      match amGet g.edges id with
      | some e => e.from_ == p.1
      | none => true))

/-- The edge table is keyed consistently: keys are duplicate-free, each entry's
key is the `(from, to, activated_at)` triple of the stored edge, and the edge's
`id` field equals its key. Holds in every reachable state. -/
def EdgesConsistent (g : TemporalGraph ν ε) : Prop :=
  (amKeys g.edges).Nodup ∧
  ∀ q ∈ g.edges, q.1 = (q.2.from_, q.2.to_, q.2.activated_at) ∧ q.2.id = q.1

/-- Adjacency entries only exist for present nodes. Holds in every reachable
state (entries are created by `insertNode` alone). -/
def AdjWithinNodes (g : TemporalGraph ν ε) : Prop :=
  ∀ p ∈ g.adjacency, (amGet g.nodes p.1).isSome = true

instance (g : TemporalGraph ν ε) : Decidable (AdjWithinNodes g) := by
  unfold AdjWithinNodes
  infer_instance

instance (g : TemporalGraph ν ε) : Decidable (EdgesConsistent g) := by
  unfold EdgesConsistent
  infer_instance

/-- Time-respecting reachability: `Reaches g s τ p x` says `p` is a path from
`s` to `x` whose consecutive node pairs are connected by stored edges traversed
in non-decreasing activation order, `τ` being `-∞` for the trivial path and the
last traversed edge's `activated_at` otherwise. -/
inductive Reaches (g : TemporalGraph ν ε) (s : String) :
    TimeExt → List String → String → Prop where
  | base : Reaches g s .negInf [s] s
  | step {τ : TimeExt} {p : List String} {x : String} (e : TemporalEdge ε) :
      Reaches g s τ p x → e ∈ getAllEdges g → e.from_ = x →
      TimeExt.leB τ (.fin e.activated_at) = true →
      Reaches g s (.fin e.activated_at) (p ++ [e.to_]) e.to_

/-- The claim C9 conclusion: the result is a time-respecting path through the
stored edges from `s` to `x`. -/
def TimeRespPath (g : TemporalGraph ν ε) (s : String) (p : List String)
    (x : String) : Prop :=
  ∃ τ, Reaches g s τ p x

/-- Test whether an edge carries the given `(from, to, activated_at)` triple. -/
def triplePredB (f t : String) (a : Int) (x : TemporalEdge ε) : Bool :=
  decide (x.from_ = f) && decide (x.to_ = t) && decide (x.activated_at = a)

/-! Concrete fixtures used by the witness theorems. -/

/-- Small store: nodes `A`, `B`, `C`; an edge `A→B` on `[10, 20]` and an
always-active edge `B→C` starting at `0`. -/
def tg : TemporalGraph String Unit :=
  let g0 : TemporalGraph String Unit := { identityFn := fun s => s }
  let g1 := (insertNode g0 "A").2
  let g2 := (insertNode g1 "B").2
  let g3 := (insertNode g2 "C").2
  let g4 := (addTemporalEdge g3 "A" "B" 10 none (some 20) 0).2
  (addTemporalEdge g4 "B" "C" 0 none none 0).2

/-- The `A→B` edge of `tg` as stored. -/
def tgEdgeAB : TemporalEdge Unit :=
  ⟨("A", "B", 10), "A", "B", 0, 10, some 20, none⟩

/-- The `B→C` edge of `tg` as stored. -/
def tgEdgeBC : TemporalEdge Unit :=
  ⟨("B", "C", 0), "B", "C", 0, 0, none, none⟩

/-- First of two colliding `addTemporalEdge` calls on `tg`: `A→C` at
activation `7` with no deactivation. -/
def tgC6a : Except GErr (TemporalEdge Unit) × TemporalGraph String Unit :=
  addTemporalEdge tg "A" "C" 7 none none 1

/-- Second colliding call: same `(from, to, activated_at)` triple, different
`deactivated_at` and `created_at`; it overwrites the first edge. -/
def tgC6b : Except GErr (TemporalEdge Unit) × TemporalGraph String Unit :=
  addTemporalEdge tgC6a.2 "A" "C" 7 none (some 9) 2

/-- BFS fixture: `A→B` activates at `1`, `B→C` at `2`, so `A`, `B`, `C` is a
time-respecting path. -/
def tg9 : TemporalGraph String Unit :=
  let g0 : TemporalGraph String Unit := { identityFn := fun s => s }
  let g1 := (insertNode g0 "A").2
  let g2 := (insertNode g1 "B").2
  let g3 := (insertNode g2 "C").2
  let g4 := (addTemporalEdge g3 "A" "B" 1 none none 0).2
  (addTemporalEdge g4 "B" "C" 2 none none 0).2

/-- Lazy-engine fixture from the repository's demo: sources `Salario = 1000`
and `Bonus = 500`, computed sum `RendaTotal`, depending on `Salario` from
`t = 0` and on `Bonus` from `t = 11`. -/
def wEng : LGraph :=
  let g1 := (createSource lazyInit "Salario" 1000).2
  let g2 := (createSource g1 "Bonus" 500).2
  let g3 := (createComputed g2 "RendaTotal" (fun vs => vs.foldl (· + ·) 0)).2
  let g4 := (addDependency g3 "RendaTotal" "Salario" 0 none 0).2
  (addDependency g4 "RendaTotal" "Bonus" 11 none 0).2

/-- Result of the first evaluation of `RendaTotal` at `t = 5` on `wEng`
(value, post state, compute count), used by the idempotence witness. -/
def wEngRun : Int × LGraph × Nat :=
  match getValueAt 9 wEng "RendaTotal" 5 with
  | .ok out => out
  | .error _ => (0, wEng, 0)

/-- Cyclic lazy-engine fixture: computed nodes `A` and `B` with mutual
dependencies `A→B` and `B→A`, both active from `t = 0`. -/
def cycG : LGraph :=
  let g1 := (createComputed lazyInit "A" (fun vs => vs.foldl (· + ·) 0)).2
  let g2 := (createComputed g1 "B" (fun vs => vs.foldl (· + ·) 0)).2
  let g3 := (addDependency g2 "A" "B" 0 none 0).2
  (addDependency g3 "B" "A" 0 none 0).2

/-! Helper lemmas. -/

theorem activeB_eq_true (e : TemporalEdge ε) (t : Int) :
    activeB e t = true ↔ activeSpec e t := by
  cases h : e.deactivated_at <;>
    simp [activeB, activeSpec, h, Bool.and_eq_true, decide_eq_true_eq]

theorem overlapB_eq_true (e : TemporalEdge ε) (t0 t1 : Int) :
    overlapB e t0 t1 = true ↔ overlapSpec e t0 t1 := by
  cases h : e.deactivated_at <;>
    simp [overlapB, overlapSpec, h, Bool.and_eq_true, decide_eq_true_eq]

theorem mem_getActiveEdgesAt (g : TemporalGraph ν ε) (t : Int) (e : TemporalEdge ε) :
    e ∈ getActiveEdgesAt g t ↔ e ∈ getAllEdges g ∧ activeSpec e t := by
  rw [getActiveEdgesAt, List.mem_filter, activeB_eq_true]
  exact Iff.rfl

theorem mem_getEdgesInInterval (g : TemporalGraph ν ε) (t0 t1 : Int)
    (e : TemporalEdge ε) :
    e ∈ getEdgesInInterval g t0 t1 ↔ e ∈ getAllEdges g ∧ overlapSpec e t0 t1 := by
  rw [getEdgesInInterval, List.mem_filter, overlapB_eq_true]
  exact Iff.rfl

theorem overlapSpec_iff_intersect (e : TemporalEdge ε) (t0 t1 : Int)
    (hw : t0 ≤ t1) (hwf : edgeIntervalWf e) :
    overlapSpec e t0 t1 ↔
      intervalsIntersect e.activated_at e.deactivated_at t0 t1 := by
  obtain ⟨i, f, t, c, a, dact, dat⟩ := e
  unfold overlapSpec intervalsIntersect edgeIntervalWf at *
  cases dact with
  | none =>
    simp only [true_and, max_le_iff] at *
    omega
  | some d =>
    simp only [max_le_iff, le_min_iff] at *
    omega

theorem amGet_amSet_self [DecidableEq α] (m : AssocMap α β) (k : α) (v : β) :
    amGet (amSet m k v) k = some v := by
  induction m with
  | nil => simp [amGet, amSet]
  | cons p rest ih =>
    by_cases h : p.1 = k <;> simp [amGet, amSet, h, ih]

theorem amGet_amSet_ne [DecidableEq α] (m : AssocMap α β) (k k' : α) (v : β)
    (h : k' ≠ k) : amGet (amSet m k v) k' = amGet m k' := by
  have hne : k ≠ k' := fun he => h he.symm
  induction m with
  | nil => simp [amGet, amSet, hne]
  | cons p rest ih =>
    by_cases hp : p.1 = k
    · subst hp
      simp [amGet, amSet, hne]
    · simp [amGet, amSet, hp, ih]

theorem mem_amSet [DecidableEq α] (m : AssocMap α β) (k : α) (v : β)
    (x : α × β) (hx : x ∈ amSet m k v) : x = (k, v) ∨ x ∈ m := by
  induction m with
  | nil => simpa [amSet] using hx
  | cons p rest ih =>
    by_cases hp : p.1 = k
    · simp only [amSet, hp, if_true] at hx
      rcases List.mem_cons.1 hx with h | h
      · exact Or.inl h
      · exact Or.inr (List.mem_cons_of_mem _ h)
    · simp only [amSet, hp, if_false] at hx
      rcases List.mem_cons.1 hx with h | h
      · exact Or.inr (h ▸ List.mem_cons_self _ _)
      · rcases ih h with h' | h'
        · exact Or.inl h'
        · exact Or.inr (List.mem_cons_of_mem _ h')

theorem amGet_mem [DecidableEq α] (m : AssocMap α β) (k : α) (v : β)
    (h : amGet m k = some v) : (k, v) ∈ m := by
  induction m with
  | nil => simp [amGet] at h
  | cons p rest ih =>
    by_cases hp : p.1 = k
    · simp only [amGet, hp, if_true, Option.some.injEq] at h
      subst h
      exact hp ▸ List.mem_cons_self _ _
    · simp only [amGet, hp, if_false] at h
      exact List.mem_cons_of_mem _ (ih h)

theorem amGet_eq_none_iff [DecidableEq α] (m : AssocMap α β) (k : α) :
    amGet m k = none ↔ k ∉ amKeys m := by
  induction m with
  | nil => simp [amGet, amKeys]
  | cons p rest ih =>
    by_cases hp : p.1 = k
    · simp [amGet, amKeys, hp]
    · simp only [amGet, hp, if_false, amKeys, List.map_cons, List.mem_cons]
      rw [amKeys] at ih
      constructor
      · intro hn hmem
        rcases hmem with h1 | h1
        · exact hp h1.symm
        · exact (ih.1 hn) h1
      · intro hn
        exact ih.2 (fun hmem => hn (Or.inr hmem))

theorem amKeys_amSet_present [DecidableEq α] (m : AssocMap α β) (k : α) (v : β)
    (h : (amGet m k).isSome = true) : amKeys (amSet m k v) = amKeys m := by
  induction m with
  | nil => simp [amGet] at h
  | cons p rest ih =>
    by_cases hp : p.1 = k
    · simp [amSet, amKeys, hp]
    · simp only [amGet, hp, if_false] at h
      have ih' := ih h
      simp only [amKeys] at ih'
      simp only [amSet, hp, if_false, amKeys, List.map_cons]
      rw [ih']

theorem amKeys_amSet_absent [DecidableEq α] (m : AssocMap α β) (k : α) (v : β)
    (h : amGet m k = none) : amKeys (amSet m k v) = amKeys m ++ [k] := by
  induction m with
  | nil => simp [amSet, amKeys]
  | cons p rest ih =>
    by_cases hp : p.1 = k
    · simp [amGet, hp] at h
    · simp only [amGet, hp, if_false] at h
      have ih' := ih h
      simp only [amKeys] at ih'
      simp only [amSet, hp, if_false, amKeys, List.map_cons]
      rw [ih']
      rfl

theorem length_amSet [DecidableEq α] (m : AssocMap α β) (k : α) (v : β) :
    (amSet m k v).length =
      if (amGet m k).isSome then m.length else m.length + 1 := by
  induction m with
  | nil => simp [amSet, amGet]
  | cons p rest ih =>
    by_cases hp : p.1 = k <;> simp [amSet, amGet, hp, ih] <;> split <;> simp

theorem nodup_amKeys_amSet [DecidableEq α] (m : AssocMap α β) (k : α) (v : β)
    (h : (amKeys m).Nodup) : (amKeys (amSet m k v)).Nodup := by
  cases hg : amGet m k with
  | some w =>
    rw [amKeys_amSet_present m k v (by simp [hg])]
    exact h
  | none =>
    rw [amKeys_amSet_absent m k v hg]
    have hk : k ∉ amKeys m := (amGet_eq_none_iff m k).1 hg
    simpa [List.nodup_append] using ⟨h, hk⟩

theorem amGet_values_mem [DecidableEq α] (m : AssocMap α β) (k : α) (v : β)
    (h : amGet m k = some v) : v ∈ amValues m := by
  have := amGet_mem m k v h
  exact List.mem_map.2 ⟨(k, v), this, rfl⟩

/-! Claim theorems. -/

/-- C1. For every graph state, every stored edge `e` and every time `t`,
`getActiveEdgesAt t` includes `e` iff `activated_at ≤ t ≤ deactivated_at`
when `deactivated_at` is set and `activated_at ≤ t` when it is absent
(treated as `+∞`); both boundaries inclusive. -/
theorem getActiveEdgesAt_mem_iff (g : TemporalGraph ν ε) (t : Int)
    (e : TemporalEdge ε) (he : e ∈ getAllEdges g) :
    e ∈ getActiveEdgesAt g t ↔ activeSpec e t := by
  rw [mem_getActiveEdgesAt]
  exact ⟨fun h => h.2, fun h => ⟨he, h⟩⟩

/-- Witness for C1, on the spec's own scenario: the stored edge
`(A, B, activated_at := 10, deactivated_at := 20)` and the boundary time `20`. -/
theorem getActiveEdgesAt_mem_iff_witness :
    (tgEdgeAB ∈ getAllEdges tg) ∧
      (tgEdgeAB ∈ getActiveEdgesAt tg 20 ↔ activeSpec tgEdgeAB 20) :=
  ⟨by decide, getActiveEdgesAt_mem_iff tg 20 tgEdgeAB (by decide)⟩

/-- C2. For every graph state, stored edge `e` and pair of times `(t0, t1)`,
`getEdgesInInterval t0 t1` includes `e` iff `(deactivated_at ?? +∞) ≥ t0`
and `activated_at ≤ t1`; and for `t0 ≤ t1` (with the edge's own interval
non-degenerate, which the source assumes but does not validate) this predicate
is exactly inclusive interval intersection of `[activated_at, deactivated_at ?? +∞]`
with `[t0, t1]`, touching endpoints counting as overlap. -/
theorem getEdgesInInterval_mem_iff (g : TemporalGraph ν ε) (t0 t1 : Int)
    (e : TemporalEdge ε) (he : e ∈ getAllEdges g) :
    (e ∈ getEdgesInInterval g t0 t1 ↔ overlapSpec e t0 t1) ∧
      (t0 ≤ t1 → edgeIntervalWf e →
        (overlapSpec e t0 t1 ↔
          intervalsIntersect e.activated_at e.deactivated_at t0 t1)) := by
  constructor
  · rw [mem_getEdgesInInterval]
    exact ⟨fun h => h.2, fun h => ⟨he, h⟩⟩
  · exact fun hw hwf => overlapSpec_iff_intersect e t0 t1 hw hwf

/-- Witness for C2, on the spec's touching-boundary scenario: the edge
`(A, B, 10, 20)` against the window `[20, 30]`. -/
theorem getEdgesInInterval_mem_iff_witness :
    (tgEdgeAB ∈ getAllEdges tg) ∧
      ((tgEdgeAB ∈ getEdgesInInterval tg 20 30 ↔ overlapSpec tgEdgeAB 20 30) ∧
        ((20 : Int) ≤ 30 → edgeIntervalWf tgEdgeAB →
          (overlapSpec tgEdgeAB 20 30 ↔
            intervalsIntersect tgEdgeAB.activated_at tgEdgeAB.deactivated_at 20 30))) :=
  ⟨by decide, getEdgesInInterval_mem_iff tg 20 30 tgEdgeAB (by decide)⟩

/-- Counterexample to C5 as stated: with the reversed window `t0 = 10 > 5 = t1`,
`getEdgesInInterval` on `tg` returns the always-active edge `B→C`, not the
empty list — the overlap predicate keeps any edge whose activation interval
contains the whole of `[t1, t0]`. -/
theorem getEdgesInInterval_reversed_counterexample :
    (5 : Int) < 10 ∧ getEdgesInInterval tg 10 5 = [tgEdgeBC] := by decide

/-- C5 amended. For `t0 > t1`, `getEdgesInInterval t0 t1` raises no error but
need not be empty: it returns exactly the stored edges with
`(deactivated_at ?? +∞) ≥ t0` and `activated_at ≤ t1` (the edges active
through the whole of `[t1, t0]`). -/
theorem getEdgesInInterval_reversed_spec (g : TemporalGraph ν ε) (t0 t1 : Int)
    (hrev : t1 < t0) (e : TemporalEdge ε) (he : e ∈ getAllEdges g) :
    e ∈ getEdgesInInterval g t0 t1 ↔ overlapSpec e t0 t1 := by
  rw [mem_getEdgesInInterval]
  exact ⟨fun h => h.2, fun h => ⟨he, h⟩⟩

/-- Witness for the amended C5: the reversed window `[10, 5]` on `tg` and the
edge `B→C`, which is included. -/
theorem getEdgesInInterval_reversed_spec_witness :
    ((5 : Int) < 10 ∧ tgEdgeBC ∈ getAllEdges tg) ∧
      (tgEdgeBC ∈ getEdgesInInterval tg 10 5 ↔ overlapSpec tgEdgeBC 10 5) :=
  ⟨⟨by decide, by decide⟩,
    getEdgesInInterval_reversed_spec tg 10 5 (by decide) tgEdgeBC (by decide)⟩

/-- C7. `insertNode(d)` fails with `NodeAlreadyExistsError` exactly when
`identity(d)` is already a node id, and the failure leaves the whole graph
unchanged; otherwise it stores `⟨id, d⟩` in the node table and initializes an
empty outgoing-edge set for `id`. The hypothesis (adjacency entries exist only
for present nodes) holds in every reachable state, entries being created by
`insertNode` alone. -/
theorem insertNode_spec (g : TemporalGraph ν ε) (d : ν) (h : AdjWithinNodes g) :
    (hasNode g (g.identityFn d) = true →
      insertNode g d = (.error (.nodeAlreadyExists (g.identityFn d)), g)) ∧
    (hasNode g (g.identityFn d) = false →
      (insertNode g d).1 = .ok ⟨g.identityFn d, d⟩ ∧
      (insertNode g d).2.nodes =
        amSet g.nodes (g.identityFn d) ⟨g.identityFn d, d⟩ ∧
      amGet (insertNode g d).2.adjacency (g.identityFn d) = some [] ∧
      (insertNode g d).2.edges = g.edges ∧
      (insertNode g d).2.adjacency =
        amSet g.adjacency (g.identityFn d) []) := by
  cases hm : amGet g.nodes (g.identityFn d) with
  | some w =>
    constructor
    · intro _
      simp [insertNode, hm]
    · intro hfalse
      rw [hasNode, hm] at hfalse
      simp at hfalse
  | none =>
    constructor
    · intro htrue
      rw [hasNode, hm] at htrue
      simp at htrue
    · intro _
      have hadj : amGet g.adjacency (g.identityFn d) = none := by
        cases ha : amGet g.adjacency (g.identityFn d) with
        | none => rfl
        | some s =>
          have hmem := amGet_mem g.adjacency (g.identityFn d) s ha
          have := h _ hmem
          rw [hm] at this
          simp at this
      refine ⟨?_, ?_, ?_, ?_, ?_⟩ <;>
        simp [insertNode, hm, hadj, amGet_amSet_self]

/-- Witness for C7: inserting the fresh node `D` into `tg` succeeds, stores it
and initializes its empty adjacency set. -/
theorem insertNode_spec_witness :
    (insertNode tg "D").1 = .ok ⟨"D", "D"⟩ ∧
    (insertNode tg "D").2.nodes = amSet tg.nodes "D" ⟨"D", "D"⟩ ∧
    amGet (insertNode tg "D").2.adjacency "D" = some [] ∧
    (insertNode tg "D").2.edges = tg.edges ∧
    (insertNode tg "D").2.adjacency = amSet tg.adjacency "D" [] :=
  (insertNode_spec tg "D" (by decide)).2 (by decide)

/-- C8. `deactivateEdge(id, at)` on an unknown id is a silent no-op leaving the
entire graph unchanged; on a known id it only rewrites that edge's
`deactivated_at` to `at` — for any `at`, with no check against `activated_at` —
and nothing else: the node table, the adjacency index, the identity function,
the set of edge keys and every other edge are untouched. -/
theorem deactivateEdge_spec (g : TemporalGraph ν ε) (edgeId : EdgeId) (ts : Int) :
    (amGet g.edges edgeId = none → deactivateEdge g edgeId ts = g) ∧
    (∀ e, amGet g.edges edgeId = some e →
      deactivateEdge g edgeId ts =
        { g with edges := amSet g.edges edgeId { e with deactivated_at := some ts } } ∧
      amGet (deactivateEdge g edgeId ts).edges edgeId =
        some { e with deactivated_at := some ts } ∧
      (∀ id2, id2 ≠ edgeId →
        amGet (deactivateEdge g edgeId ts).edges id2 = amGet g.edges id2) ∧
      (deactivateEdge g edgeId ts).nodes = g.nodes ∧
      (deactivateEdge g edgeId ts).adjacency = g.adjacency ∧
      amKeys (deactivateEdge g edgeId ts).edges = amKeys g.edges) := by
  constructor
  · intro hm
    simp [deactivateEdge, hm]
  · intro e hm
    have h1 : deactivateEdge g edgeId ts =
        { g with edges := amSet g.edges edgeId { e with deactivated_at := some ts } } := by
      simp [deactivateEdge, hm]
    refine ⟨h1, ?_, ?_, ?_, ?_, ?_⟩
    · rw [h1]
      exact amGet_amSet_self g.edges edgeId _
    · intro id2 h2
      rw [h1]
      exact amGet_amSet_ne g.edges edgeId id2 _ h2
    · rw [h1]
    · rw [h1]
    · rw [h1]
      exact amKeys_amSet_present g.edges edgeId _ (by simp [hm])

/-- Witness for C8: deactivating the stored edge `A→B` of `tg` at time `-5`
(strictly before its `activated_at = 10`, showing the absence of a check)
rewrites only that edge's `deactivated_at`. -/
theorem deactivateEdge_spec_witness :
    deactivateEdge tg ("A", "B", 10) (-5) =
      { tg with
        edges := amSet tg.edges ("A", "B", 10)
          { tgEdgeAB with deactivated_at := some (-5) } } ∧
    amGet (deactivateEdge tg ("A", "B", 10) (-5)).edges ("A", "B", 10) =
      some { tgEdgeAB with deactivated_at := some (-5) } ∧
    (deactivateEdge tg ("A", "B", 10) (-5)).nodes = tg.nodes ∧
    (deactivateEdge tg ("A", "B", 10) (-5)).adjacency = tg.adjacency ∧
    amKeys (deactivateEdge tg ("A", "B", 10) (-5)).edges = amKeys tg.edges := by
  have h := (deactivateEdge_spec tg ("A", "B", 10) (-5)).2 tgEdgeAB (by decide)
  exact ⟨h.1, h.2.1, h.2.2.2.1, h.2.2.2.2.1, h.2.2.2.2.2⟩

theorem setAdd_mem_self [DecidableEq α] (s : List α) (x : α) : x ∈ setAdd s x := by
  unfold setAdd
  split
  · assumption
  · simp

theorem setAdd_mem_of_mem [DecidableEq α] (s : List α) (x y : α) (h : y ∈ s) :
    y ∈ setAdd s x := by
  unfold setAdd
  split
  · exact h
  · exact List.mem_append_left _ h

theorem amValues_amSet_mem [DecidableEq α] (m : AssocMap α β) (k : α) (v : β)
    (x : β) (hx : x ∈ amValues (amSet m k v)) : x = v ∨ x ∈ amValues m := by
  rcases List.mem_map.1 hx with ⟨q, hq, hqx⟩
  rcases mem_amSet m k v q hq with h | h
  · exact Or.inl (by rw [← hqx, h])
  · exact Or.inr (List.mem_map.2 ⟨q, h, hqx⟩)

theorem triplePredB_eq_true (f t : String) (a : Int) (x : TemporalEdge ε) :
    triplePredB f t a x = true ↔
      x.from_ = f ∧ x.to_ = t ∧ x.activated_at = a := by
  simp [triplePredB, Bool.and_eq_true, decide_eq_true_eq, and_assoc]

theorem filter_amValues_triple_nil (f t : String) (a : Int)
    (E : AssocMap EdgeId (TemporalEdge ε))
    (hk : (f, t, a) ∉ amKeys E)
    (hcons : ∀ q ∈ E, q.1 = (q.2.from_, q.2.to_, q.2.activated_at)) :
    (amValues E).filter (triplePredB f t a) = [] := by
  rw [List.filter_eq_nil_iff]
  intro x hx hpred
  rcases List.mem_map.1 hx with ⟨q, hq, hqx⟩
  rcases (triplePredB_eq_true f t a x).1 hpred with ⟨h1, h2, h3⟩
  have hkey : q.1 = (f, t, a) := by
    rw [hcons q hq, hqx, h1, h2, h3]
  exact hk (hkey ▸ List.mem_map.2 ⟨q, hq, rfl⟩)

theorem filter_amValues_amSet_triple (f t : String) (a : Int)
    (E : AssocMap EdgeId (TemporalEdge ε))
    (hnd : (amKeys E).Nodup)
    (hcons : ∀ q ∈ E, q.1 = (q.2.from_, q.2.to_, q.2.activated_at))
    (v : TemporalEdge ε) (hf : v.from_ = f) (ht : v.to_ = t)
    (ha : v.activated_at = a) :
    (amValues (amSet E (f, t, a) v)).filter (triplePredB f t a) = [v] := by
  have hv : triplePredB f t a v = true :=
    (triplePredB_eq_true f t a v).2 ⟨hf, ht, ha⟩
  induction E with
  | nil => simp [amSet, amValues, List.filter, hv]
  | cons p rest ih =>
    by_cases hp : p.1 = (f, t, a)
    · simp only [amSet, hp, if_true]
      have hrest : (f, t, a) ∉ amKeys rest := by
        have := hnd
        rw [amKeys, List.map_cons, List.nodup_cons] at this
        exact hp ▸ this.1
      have hnil : (amValues rest).filter (triplePredB f t a) = [] :=
        filter_amValues_triple_nil f t a rest hrest
          (fun q hq => hcons q (List.mem_cons_of_mem _ hq))
      rw [amValues, List.map_cons, List.filter_cons_of_pos hv]
      rw [amValues] at hnil
      rw [hnil]
    · simp only [amSet, hp, if_false]
      have hpred : triplePredB f t a p.2 = false := by
        cases hb : triplePredB f t a p.2 with
        | false => rfl
        | true =>
          rcases (triplePredB_eq_true f t a p.2).1 hb with ⟨h1, h2, h3⟩
          exact absurd (by rw [hcons p (List.mem_cons_self _ _), h1, h2, h3]) hp
      have hnd' : (amKeys rest).Nodup := by
        rw [amKeys, List.map_cons, List.nodup_cons] at hnd
        exact hnd.2
      have ih' := ih hnd' (fun q hq => hcons q (List.mem_cons_of_mem _ hq))
      rw [amValues, List.map_cons,
        List.filter_cons_of_neg (by rw [hpred]; exact Bool.false_ne_true)]
      rw [amValues] at ih'
      exact ih'

/-- C6. Two `addTemporalEdge` calls with equal `from`, `to` and `activated_at`
(endpoints present) produce edges with the same id; the second silently
overwrites the first, so afterwards the edge table holds exactly one edge for
that triple — carrying the second call's `data` and `deactivated_at` — and the
total edge count has grown by at most one. The last three hypotheses hold in
every reachable state. -/
theorem addTemporalEdge_overwrite (g : TemporalGraph ν ε) (f t : String) (a : Int)
    (d1 d2 : Option ε) (dt1 dt2 : Option Int) (n1 n2 : Int)
    (hf : hasNode g f = true) (ht : hasNode g t = true)
    (hadj : (amGet g.adjacency f).isSome = true)
    (hnd : (amKeys g.edges).Nodup)
    (hcons : ∀ q ∈ g.edges, q.1 = (q.2.from_, q.2.to_, q.2.activated_at)) :
    (addTemporalEdge g f t a d1 dt1 n1).1 =
      .ok ⟨(f, t, a), f, t, n1, a, dt1, d1⟩ ∧
    (addTemporalEdge (addTemporalEdge g f t a d1 dt1 n1).2 f t a d2 dt2 n2).1 =
      .ok ⟨(f, t, a), f, t, n2, a, dt2, d2⟩ ∧
    (⟨(f, t, a), f, t, n1, a, dt1, d1⟩ : TemporalEdge ε).id =
      (⟨(f, t, a), f, t, n2, a, dt2, d2⟩ : TemporalEdge ε).id ∧
    amGet (addTemporalEdge (addTemporalEdge g f t a d1 dt1 n1).2
        f t a d2 dt2 n2).2.edges (f, t, a) =
      some ⟨(f, t, a), f, t, n2, a, dt2, d2⟩ ∧
    (amValues (addTemporalEdge (addTemporalEdge g f t a d1 dt1 n1).2
        f t a d2 dt2 n2).2.edges).filter (triplePredB f t a) =
      [⟨(f, t, a), f, t, n2, a, dt2, d2⟩] ∧
    (addTemporalEdge (addTemporalEdge g f t a d1 dt1 n1).2
        f t a d2 dt2 n2).2.edges.length ≤ g.edges.length + 1 := by
  obtain ⟨s, hs⟩ := Option.isSome_iff_exists.1 hadj
  have H1 : addTemporalEdge g f t a d1 dt1 n1 =
      (.ok ⟨(f, t, a), f, t, n1, a, dt1, d1⟩,
       { g with
         edges := amSet g.edges (f, t, a) ⟨(f, t, a), f, t, n1, a, dt1, d1⟩,
         adjacency := amSet g.adjacency f (setAdd s (f, t, a)) }) := by
    rw [addTemporalEdge, hf, ht]
    simp only [Bool.true_eq_false, if_false, hs]
  have hf1 : hasNode (addTemporalEdge g f t a d1 dt1 n1).2 f = true := by
    rw [H1]
    exact hf
  have ht1 : hasNode (addTemporalEdge g f t a d1 dt1 n1).2 t = true := by
    rw [H1]
    exact ht
  have hs1 : amGet (addTemporalEdge g f t a d1 dt1 n1).2.adjacency f =
      some (setAdd s (f, t, a)) := by
    rw [H1]
    exact amGet_amSet_self ..
  have H2 : addTemporalEdge (addTemporalEdge g f t a d1 dt1 n1).2 f t a d2 dt2 n2 =
      (.ok ⟨(f, t, a), f, t, n2, a, dt2, d2⟩,
       { (addTemporalEdge g f t a d1 dt1 n1).2 with
         edges := amSet (addTemporalEdge g f t a d1 dt1 n1).2.edges (f, t, a)
           ⟨(f, t, a), f, t, n2, a, dt2, d2⟩,
         adjacency := amSet (addTemporalEdge g f t a d1 dt1 n1).2.adjacency f
           (setAdd (setAdd s (f, t, a)) (f, t, a)) }) := by
    rw [addTemporalEdge, hf1, ht1]
    simp only [Bool.true_eq_false, if_false, hs1]
  have hE1 : (addTemporalEdge g f t a d1 dt1 n1).2.edges =
      amSet g.edges (f, t, a) ⟨(f, t, a), f, t, n1, a, dt1, d1⟩ := by
    rw [H1]
  refine ⟨by rw [H1], by rw [H2], rfl, ?_, ?_, ?_⟩
  · rw [H2]
    exact amGet_amSet_self ..
  · rw [H2]
    show (amValues (amSet (addTemporalEdge g f t a d1 dt1 n1).2.edges (f, t, a)
      ⟨(f, t, a), f, t, n2, a, dt2, d2⟩)).filter (triplePredB f t a) = _
    rw [hE1]
    exact filter_amValues_amSet_triple f t a _
      (nodup_amKeys_amSet g.edges (f, t, a) _ hnd)
      (fun q hq => by
        rcases mem_amSet g.edges (f, t, a) _ q hq with h | h
        · rw [h]
        · exact hcons q h)
      _ rfl rfl rfl
  · rw [H2]
    show (amSet (addTemporalEdge g f t a d1 dt1 n1).2.edges (f, t, a)
      ⟨(f, t, a), f, t, n2, a, dt2, d2⟩).length ≤ g.edges.length + 1
    rw [length_amSet, hE1, amGet_amSet_self]
    simp only [Option.isSome_some, if_true]
    rw [length_amSet]
    split <;> omega

/-- Witness for C6: the colliding calls `tgC6a` and `tgC6b` on `tg` — same
`(A, C, 7)` triple, different deactivations — leave exactly one `A→C@7` edge,
the second one, and grow the edge table by one. -/
theorem addTemporalEdge_overwrite_witness :
    tgC6a.1 = .ok ⟨("A", "C", 7), "A", "C", 1, 7, none, none⟩ ∧
    tgC6b.1 = .ok ⟨("A", "C", 7), "A", "C", 2, 7, some 9, none⟩ ∧
    (⟨("A", "C", 7), "A", "C", 1, 7, none, none⟩ : TemporalEdge Unit).id =
      (⟨("A", "C", 7), "A", "C", 2, 7, some 9, none⟩ : TemporalEdge Unit).id ∧
    amGet tgC6b.2.edges ("A", "C", 7) =
      some ⟨("A", "C", 7), "A", "C", 2, 7, some 9, none⟩ ∧
    (amValues tgC6b.2.edges).filter (triplePredB "A" "C" 7) =
      [⟨("A", "C", 7), "A", "C", 2, 7, some 9, none⟩] ∧
    tgC6b.2.edges.length ≤ tg.edges.length + 1 :=
  addTemporalEdge_overwrite tg "A" "C" 7 none none none (some 9) 1 2
    (by decide) (by decide) (by decide) (by decide) (by decide)

/-- C10. Each mutating operation of the store — `insertNode`,
`addTemporalEdge` (any outcome, including the error paths) and
`deactivateEdge` — preserves the state invariant: stored edges' endpoints are
present nodes, every node id has an adjacency entry, and every stored edge's
id belongs to the adjacency set of its `from` node. The query methods and
`temporalShortestPath` are pure functions of the graph in this embedding
(they return no state), so they preserve it trivially. -/
theorem ops_preserve_invariant (g : TemporalGraph ν ε) (hI : Invariant g) :
    (∀ d : ν, Invariant (insertNode g d).2) ∧
    (∀ (fi ti : String) (a : Int) (dt : Option ε) (da : Option Int) (n : Int),
      Invariant (addTemporalEdge g fi ti a dt da n).2) ∧
    (∀ (eid : EdgeId) (ts : Int), Invariant (deactivateEdge g eid ts)) := by
  obtain ⟨hI1, hI2, hI3⟩ := hI
  refine ⟨?_, ?_, ?_⟩
  · -- insertNode
    intro d
    rw [insertNode]
    cases hm : amGet g.nodes (g.identityFn d) with
    | some w => exact ⟨hI1, hI2, hI3⟩
    | none =>
      have hasNodeMono : ∀ x : String, (amGet g.nodes x).isSome = true →
          (amGet (amSet g.nodes (g.identityFn d) ⟨g.identityFn d, d⟩) x).isSome = true := by
        intro x hx
        by_cases hxd : x = g.identityFn d
        · rw [hxd, amGet_amSet_self]
          rfl
        · rw [amGet_amSet_ne _ _ _ _ hxd]
          exact hx
      by_cases hadj : (amGet g.adjacency (g.identityFn d)).isSome = true
      · rw [if_pos hadj]
        refine ⟨?_, ?_, ?_⟩
        · exact fun e he => ⟨hasNodeMono _ (hI1 e he).1, hasNodeMono _ (hI1 e he).2⟩
        · intro p hp
          rcases mem_amSet _ _ _ p hp with h | h
          · rw [h]
            exact hadj
          · exact hI2 p h
        · exact hI3
      · rw [if_neg hadj]
        have hnone : amGet g.adjacency (g.identityFn d) = none := by
          cases hx : amGet g.adjacency (g.identityFn d) with
          | none => rfl
          | some s =>
            rw [hx] at hadj
            simp at hadj
        have hsome2 : (amGet (amSet g.adjacency (g.identityFn d)
            ([] : List EdgeId)) (g.identityFn d)).isSome = true := by
          rw [amGet_amSet_self]
          rfl
        refine ⟨?_, ?_, ?_⟩
        · exact fun e he => ⟨hasNodeMono _ (hI1 e he).1, hasNodeMono _ (hI1 e he).2⟩
        · intro p hp
          rcases mem_amSet _ _ _ p hp with h | h
          · rw [h]
            exact hsome2
          · by_cases hx : p.1 = g.identityFn d
            · rw [hx]
              exact hsome2
            · show (amGet (amSet g.adjacency (g.identityFn d) []) p.1).isSome = true
              rw [amGet_amSet_ne _ _ _ _ hx]
              exact hI2 p h
        · intro q hq
          by_cases hx : q.2.from_ = g.identityFn d
          · have h3 := hI3 q hq
            rw [hx, hnone] at h3
            simp at h3
          · show q.2.id ∈ (amGet (amSet g.adjacency (g.identityFn d) []) q.2.from_).getD []
            rw [amGet_amSet_ne _ _ _ _ hx]
            exact hI3 q hq
  · -- addTemporalEdge
    intro fi ti a dt da n
    rw [addTemporalEdge]
    by_cases hfi : hasNode g fi = true
    case neg =>
      have hfi' : hasNode g fi = false := by
        cases hx : hasNode g fi with
        | false => rfl
        | true => exact absurd hx hfi
      rw [if_pos hfi']
      exact ⟨hI1, hI2, hI3⟩
    case pos =>
      rw [hfi]
      simp only [Bool.true_eq_false, if_false]
      by_cases hti : hasNode g ti = true
      case neg =>
        have hti' : hasNode g ti = false := by
          cases hx : hasNode g ti with
          | false => rfl
          | true => exact absurd hx hti
        rw [if_pos hti']
        exact ⟨hI1, hI2, hI3⟩
      case pos =>
        rw [hti]
        simp only [Bool.true_eq_false, if_false]
        have hsome : (amGet g.adjacency fi).isSome = true := by
          obtain ⟨w, hw⟩ := Option.isSome_iff_exists.1 hfi
          exact hI2 (fi, w) (amGet_mem _ _ _ hw)
        obtain ⟨s, hs⟩ := Option.isSome_iff_exists.1 hsome
        rw [hs]
        refine ⟨?_, ?_, ?_⟩
        · intro e he
          rcases amValues_amSet_mem _ _ _ e he with h | h
          · rw [h]
            exact ⟨hfi, hti⟩
          · exact hI1 e h
        · intro p hp
          by_cases hx : p.1 = fi
          · rw [hx]
            show (amGet (amSet g.adjacency fi (setAdd s (fi, ti, a))) fi).isSome = true
            rw [amGet_amSet_self]
            rfl
          · show (amGet (amSet g.adjacency fi (setAdd s (fi, ti, a))) p.1).isSome = true
            rw [amGet_amSet_ne _ _ _ _ hx]
            exact hI2 p hp
        · intro q hq
          rcases mem_amSet _ _ _ q hq with h | h
          · rw [h]
            show (fi, ti, a) ∈
              (amGet (amSet g.adjacency fi (setAdd s (fi, ti, a))) fi).getD []
            rw [amGet_amSet_self]
            exact setAdd_mem_self ..
          · by_cases hx : q.2.from_ = fi
            · show q.2.id ∈
                (amGet (amSet g.adjacency fi (setAdd s (fi, ti, a))) q.2.from_).getD []
              rw [hx, amGet_amSet_self]
              have h3 := hI3 q h
              rw [hx, hs] at h3
              exact setAdd_mem_of_mem _ _ _ h3
            · show q.2.id ∈
                (amGet (amSet g.adjacency fi (setAdd s (fi, ti, a))) q.2.from_).getD []
              rw [amGet_amSet_ne _ _ _ _ hx]
              exact hI3 q h
  · -- deactivateEdge
    intro eid ts
    rw [deactivateEdge]
    cases hm : amGet g.edges eid with
    | none => exact ⟨hI1, hI2, hI3⟩
    | some e =>
      refine ⟨?_, ?_, ?_⟩
      · intro x hx
        rcases amValues_amSet_mem _ _ _ x hx with h | h
        · rw [h]
          exact hI1 e (amGet_values_mem _ _ _ hm)
        · exact hI1 x h
      · exact hI2
      · intro q hq
        rcases mem_amSet _ _ _ q hq with h | h
        · rw [h]
          exact hI3 (eid, e) (amGet_mem _ _ _ hm)
        · exact hI3 q h

/-- Witness for C10: `tg` satisfies the invariant and deactivating its `A→B`
edge preserves it. -/
theorem ops_preserve_invariant_witness :
    Invariant (deactivateEdge tg ("A", "B", 10) 5) :=
  (ops_preserve_invariant tg (by decide)).2.2 ("A", "B", 10) 5

theorem Reaches.path_ne_nil {g : TemporalGraph ν ε} {s : String} {τ : TimeExt}
    {p : List String} {x : String} (h : Reaches g s τ p x) : p ≠ [] := by
  induction h with
  | base => simp
  | step e h1 h2 h3 ih => simp

theorem head?_append_of_head? (l l2 : List α) (s : α) (h : l.head? = some s) :
    (l ++ l2).head? = some s := by
  cases l with
  | nil => simp at h
  | cons a t => simpa using h

theorem Reaches.head_eq {g : TemporalGraph ν ε} {s : String} {τ : TimeExt}
    {p : List String} {x : String} (h : Reaches g s τ p x) : p.head? = some s := by
  induction h with
  | base => rfl
  | step e h1 h2 h3 h4 ih => exact head?_append_of_head? _ _ _ ih

theorem Reaches.getLast_eq {g : TemporalGraph ν ε} {s : String} {τ : TimeExt}
    {p : List String} {x : String} (h : Reaches g s τ p x) : p.getLast? = some x := by
  induction h with
  | base => rfl
  | step e h1 h2 h3 ih => simp [List.getLast?_concat]

theorem adjSoundB_spec (g : TemporalGraph ν ε) (hadj : AdjSoundB g = true)
    (nodeId : String) (ids : List EdgeId)
    (hids : amGet g.adjacency nodeId = some ids) (id : EdgeId) (hid : id ∈ ids)
    (e : TemporalEdge ε) (he : amGet g.edges id = some e) : e.from_ = nodeId := by
  rw [AdjSoundB, List.all_eq_true] at hadj
  have h1 := hadj (nodeId, ids) (amGet_mem _ _ _ hids)
  rw [List.all_eq_true] at h1
  have h2 := h1 id hid
  simp only [he] at h2
  simpa using h2

theorem tspLoop_sound (g : TemporalGraph ν ε) (s endId : String)
    (hadj : AdjSoundB g = true) :
    ∀ (n : Nat) (visited : List String) (queue : List TspEntry),
      (∀ ent ∈ queue, Reaches g s ent.2.1 ent.2.2 ent.1) →
      ∀ p, tspLoop g endId n visited queue = some p →
        ∃ τ, Reaches g s τ p endId := by
  intro n
  induction n with
  | zero =>
    intro visited queue hq p hp
    simp [tspLoop] at hp
  | succ k ih =>
    intro visited queue hq p hp
    cases queue with
    | nil => simp [tspLoop] at hp
    | cons ent rest =>
      simp only [tspLoop] at hp
      by_cases hend : ent.1 = endId
      · rw [if_pos hend] at hp
        have hpp : ent.2.2 = p := Option.some.inj hp
        exact ⟨ent.2.1, hpp ▸ hend ▸ hq ent (List.mem_cons_self ..)⟩
      · rw [if_neg hend] at hp
        by_cases hvis : ent.1 ∈ visited
        · rw [if_pos hvis] at hp
          exact ih visited rest
            (fun e' he' => hq e' (List.mem_cons_of_mem _ he')) p hp
        · rw [if_neg hvis] at hp
          cases hga : amGet g.adjacency ent.1 with
          | none =>
            simp only [hga] at hp
            refine ih _ _ ?_ p hp
            intro e' he'
            rcases List.mem_append.1 he' with h | h
            · exact hq e' (List.mem_cons_of_mem _ h)
            · simp at h
          | some ids =>
            simp only [hga] at hp
            refine ih _ _ ?_ p hp
            intro e' he'
            rcases List.mem_append.1 he' with h | h
            · exact hq e' (List.mem_cons_of_mem _ h)
            · rcases List.mem_filterMap.1 h with ⟨id, hid, hpush⟩
              cases hge : amGet g.edges id with
              | none =>
                simp [hge] at hpush
              | some e =>
                simp only [hge] at hpush
                by_cases hle : TimeExt.leB ent.2.1 (.fin e.activated_at) = true
                · rw [if_pos hle] at hpush
                  have hfrom : e.from_ = ent.1 :=
                    adjSoundB_spec g hadj ent.1 ids hga id hid e hge
                  have hstep :
                      Reaches g s (.fin e.activated_at)
                        (ent.2.2 ++ [e.to_]) e.to_ :=
                    Reaches.step e (hq ent (List.mem_cons_self ..))
                      (amGet_values_mem _ _ _ hge) hfrom hle
                  have he'eq :
                      e' = (e.to_, TimeExt.fin e.activated_at, ent.2.2 ++ [e.to_]) :=
                    (Option.some.inj hpush).symm
                  rw [he'eq]
                  exact hstep
                · rw [if_neg hle] at hpush
                  exact absurd hpush (by simp)

/-- C9. Whenever `temporalShortestPath(start, end)` returns a path, the path
begins with `start`, ends with `end`, and is time-respecting: each consecutive
node pair is connected by a stored edge from the former to the latter and the
traversed edges appear in non-decreasing `activated_at` order starting from the
bound `-∞` (the content of `Reaches`). The `AdjSoundB` hypothesis — adjacency
entries only list edges leaving their node — holds in every reachable state. -/
theorem temporalShortestPath_sound (g : TemporalGraph ν ε) (s endId : String)
    (p : List String) (hadj : AdjSoundB g = true)
    (h : temporalShortestPath g s endId = .ok (some p)) :
    p.head? = some s ∧ p.getLast? = some endId ∧ TimeRespPath g s p endId := by
  rw [temporalShortestPath] at h
  by_cases hs : hasNode g s = false
  · rw [if_pos hs] at h
    exact absurd h (by simp)
  · rw [if_neg hs] at h
    by_cases he : hasNode g endId = false
    · rw [if_pos he] at h
      exact absurd h (by simp)
    · rw [if_neg he] at h
      have h' : tspLoop g endId (tspFuel g) [] [(s, .negInf, [s])] = some p :=
        Except.ok.inj h
      have hinv : ∀ ent ∈ ([(s, TimeExt.negInf, [s])] : List TspEntry),
          Reaches g s ent.2.1 ent.2.2 ent.1 := by
        intro ent hent
        rw [List.mem_singleton] at hent
        rw [hent]
        exact Reaches.base
      obtain ⟨τ, hr⟩ := tspLoop_sound g s endId hadj (tspFuel g) [] _ hinv p h'
      exact ⟨hr.head_eq, hr.getLast_eq, τ, hr⟩

/-- Witness for C9: on `tg9`, the BFS returns `[A, B, C]`, which starts at `A`,
ends at `C` and respects time (`A→B` at `1`, then `B→C` at `2`). -/
theorem temporalShortestPath_sound_witness :
    (["A", "B", "C"] : List String).head? = some "A" ∧
    (["A", "B", "C"] : List String).getLast? = some "C" ∧
    TimeRespPath tg9 "A" ["A", "B", "C"] "C" :=
  temporalShortestPath_sound tg9 "A" "C" ["A", "B", "C"] (by decide) (by rfl)

theorem amGet_map_if [DecidableEq α] (m : AssocMap α β) (k k' : α) (f : β → β) :
    amGet (m.map (fun p => if p.1 = k then (p.1, f p.2) else p)) k' =
      if k' = k then (amGet m k').map f else amGet m k' := by
  induction m with
  | nil => by_cases h : k' = k <;> simp [amGet, h]
  | cons p rest ih =>
    by_cases hp : p.1 = k
    · by_cases hp' : p.1 = k'
      · have hk : k' = k := by rw [← hp', hp]
        simp [amGet, hp, hp', hk]
      · have hk : ¬k' = k := fun hc => hp' (by rw [hp, hc])
        have hk2 : ¬k = k' := fun hc => hk hc.symm
        simp only [List.map_cons, hp, if_true, amGet, hp', if_false, hk, hk2, ih]
    · by_cases hp' : p.1 = k'
      · have hk : ¬k' = k := fun hc => hp (by rw [hp', hc])
        simp [amGet, hp, hp', hk]
      · simp only [List.map_cons, hp, if_false, amGet, hp', ih]

theorem lookupD_setCacheG_self (g : LGraph) (nodeId : String) (t v : Int) :
    lookupD (setCacheG g nodeId t v) nodeId =
      (lookupD g nodeId).map (fun d => { d with cache := amSet d.cache t v }) := by
  rw [lookupD, lookupD, getNode, getNode, setCacheG]
  show (amGet (g.nodes.map (fun p =>
      if p.1 = nodeId then (p.1, cacheUpd t v p.2) else p)) nodeId).map _ = _
  rw [amGet_map_if g.nodes nodeId nodeId (cacheUpd t v), if_pos rfl]
  cases amGet g.nodes nodeId with
  | none => rfl
  | some node => rfl

theorem lookupD_setCacheG_ne (g : LGraph) (nodeId k : String) (t v : Int)
    (h : k ≠ nodeId) : lookupD (setCacheG g nodeId t v) k = lookupD g k := by
  rw [lookupD, lookupD, getNode, getNode, setCacheG]
  show (amGet (g.nodes.map (fun p =>
      if p.1 = nodeId then (p.1, cacheUpd t v p.2) else p)) k).map _ = _
  rw [amGet_map_if g.nodes nodeId k (cacheUpd t v), if_neg h]

theorem skelD_refl (d : LazyNodeData) : skelD d d := ⟨rfl, rfl, rfl, rfl⟩

theorem skelD_trans {d1 d2 d3 : LazyNodeData} (h1 : skelD d1 d2)
    (h2 : skelD d2 d3) : skelD d1 d3 := by
  obtain ⟨a1, b1, c1, e1⟩ := h1
  obtain ⟨a2, b2, c2, e2⟩ := h2
  exact ⟨a1.trans a2, b1.trans b2, c1.trans c2, e1.trans e2⟩

theorem sameSkel_refl (g : LGraph) : SameSkel g g := by
  refine ⟨rfl, rfl, rfl, fun id => ?_⟩
  cases getNode g id with
  | none => trivial
  | some node => exact ⟨rfl, skelD_refl node.data⟩

theorem sameSkel_trans {g1 g2 g3 : LGraph} (h1 : SameSkel g1 g2)
    (h2 : SameSkel g2 g3) : SameSkel g1 g3 := by
  obtain ⟨a1, b1, c1, hn1⟩ := h1
  obtain ⟨a2, b2, c2, hn2⟩ := h2
  refine ⟨a2.trans a1, b2.trans b1, c2.trans c1, fun id => ?_⟩
  have k1 := hn1 id
  have k2 := hn2 id
  cases hx1 : getNode g1 id with
  | none =>
    rw [hx1] at k1
    cases hx2 : getNode g2 id with
    | none =>
      rw [hx2] at k2
      cases hx3 : getNode g3 id with
      | none => trivial
      | some n3 => rw [hx3] at k2; exact k2.elim
    | some n2 => rw [hx2] at k1; exact k1.elim
  | some n1 =>
    rw [hx1] at k1
    cases hx2 : getNode g2 id with
    | none => rw [hx2] at k1; exact k1.elim
    | some n2 =>
      rw [hx2] at k1 k2
      cases hx3 : getNode g3 id with
      | none => rw [hx3] at k2; exact k2.elim
      | some n3 =>
        rw [hx3] at k2
        exact ⟨k1.1.trans k2.1, skelD_trans k1.2 k2.2⟩

theorem sameSkel_setCacheG (g : LGraph) (nodeId : String) (t v : Int) :
    SameSkel g (setCacheG g nodeId t v) := by
  refine ⟨rfl, rfl, rfl, fun id => ?_⟩
  show skelN (getNode g id) (getNode (setCacheG g nodeId t v) id)
  rw [getNode, setCacheG]
  show skelN _ (amGet (g.nodes.map (fun p =>
      if p.1 = nodeId then (p.1, cacheUpd t v p.2) else p)) id)
  rw [amGet_map_if g.nodes nodeId id (cacheUpd t v)]
  by_cases hid : id = nodeId
  · rw [if_pos hid]
    cases amGet g.nodes id with
    | none => trivial
    | some node => exact ⟨rfl, rfl, rfl, rfl, rfl⟩
  · rw [if_neg hid]
    cases amGet g.nodes id with
    | none => trivial
    | some node => exact ⟨rfl, skelD_refl node.data⟩

theorem sameSkel_lookupD {g g' : LGraph} (h : SameSkel g g') (id : String)
    (d : LazyNodeData) (hd : lookupD g id = some d) :
    ∃ d', lookupD g' id = some d' ∧ skelD d d' := by
  have hn := h.2.2.2 id
  rw [lookupD] at hd
  cases hx : getNode g id with
  | none => rw [hx] at hd; exact absurd hd (by simp)
  | some node =>
    rw [hx] at hd hn
    cases hx' : getNode g' id with
    | none => rw [hx'] at hn; exact hn.elim
    | some node' =>
      rw [hx'] at hn
      refine ⟨node'.data, by rw [lookupD, hx']; rfl, ?_⟩
      have : node.data = d := by
        simpa using hd
      exact this ▸ hn.2

theorem hasNode_of_lookupD (g : LGraph) (id : String) (d : LazyNodeData)
    (h : lookupD g id = some d) : hasNode g id = true := by
  rw [lookupD] at h
  rw [hasNode]
  cases hx : getNode g id with
  | none => rw [hx] at h; exact absurd h (by simp)
  | some node => rw [getNode] at hx; rw [hx]; rfl

theorem getOutgoingEdges_of_hasNode (g : TemporalGraph ν ε) (id : String)
    (h : hasNode g id = true) :
    getOutgoingEdges g id = .ok (outgoingCore g id) := by
  rw [getOutgoingEdges, h]
  simp only [Bool.true_eq_false, if_false]

theorem map_eq_singleton_struct (l : List α) (f : α → β) (y : β)
    (h : l.map f = [y]) : ∃ x, l = [x] ∧ f x = y := by
  cases l with
  | nil => simp at h
  | cons a t =>
    cases t with
    | nil =>
      refine ⟨a, rfl, ?_⟩
      simpa using h
    | cons b t2 => simp at h

theorem depsFold_skel (f : LGraph → String → Except EvalErr (Int × LGraph × Nat))
    (hf : ∀ g id out, f g id = .ok out → SameSkel g out.2.1) :
    ∀ (deps : List (TemporalEdge Unit)) (g : LGraph) (out : List Int × LGraph × Nat),
      depsFold f deps g = .ok out → SameSkel g out.2.1 := by
  intro deps
  induction deps with
  | nil =>
    intro g out h
    rw [depsFold] at h
    have hout : ([], g, 0) = out := Except.ok.inj h
    rw [← hout]
    exact sameSkel_refl g
  | cons e rest ih =>
    intro g out h
    rw [depsFold] at h
    cases h1 : f g e.to_ with
    | error err => simp [h1] at h
    | ok out1 =>
      obtain ⟨v1, g1, c1⟩ := out1
      simp only [h1] at h
      cases h2 : depsFold f rest g1 with
      | error err => simp [h2] at h
      | ok out2 =>
        obtain ⟨vs2, g2, c2⟩ := out2
        simp only [h2] at h
        have hout : ((v1 :: vs2, g2, c1 + c2) : List Int × LGraph × Nat) = out :=
          Except.ok.inj h
        rw [← hout]
        exact sameSkel_trans (hf g e.to_ (v1, g1, c1) h1) (ih g1 (vs2, g2, c2) h2)

theorem getValueAt_skel :
    ∀ (n : Nat) (g : LGraph) (id : String) (t : Int) (out : Int × LGraph × Nat),
      getValueAt n g id t = .ok out → SameSkel g out.2.1 := by
  intro n
  induction n with
  | zero =>
    intro g id t out h
    simp [getValueAt] at h
  | succ k ih =>
    intro g id t out h
    rw [getValueAt] at h
    cases hn : lookupD g id with
    | none => simp [hn] at h
    | some nd =>
      simp only [hn] at h
      cases hty : nd.type with
      | SOURCE =>
        simp only [hty] at h
        have hout : (nd.value.getD 0, g, 0) = out := Except.ok.inj h
        rw [← hout]
        exact sameSkel_refl g
      | COMPUTED =>
        simp only [hty] at h
        cases hc : amGet nd.cache t with
        | some w =>
          simp only [hc] at h
          have hout : (w, g, 0) = out := Except.ok.inj h
          rw [← hout]
          exact sameSkel_refl g
        | none =>
          simp only [hc,
            getOutgoingEdges_of_hasNode g id (hasNode_of_lookupD g id nd hn)] at h
          cases hfold : depsFold (fun g1 id1 => getValueAt k g1 id1 t)
              ((outgoingCore g id).filter (fun e => activeB e t)) g with
          | error err => simp [hfold] at h
          | ok out1 =>
            obtain ⟨vs, g1, c1⟩ := out1
            simp only [hfold] at h
            have hskel1 : SameSkel g g1 :=
              depsFold_skel _ (fun g0 id0 out0 h0 => ih g0 id0 t out0 h0)
                _ g (vs, g1, c1) hfold
            cases hcomp : nd.compute with
            | some fc =>
              simp only [hcomp] at h
              have hout : (fc vs, setCacheG g1 id t (fc vs), c1 + 1) = out :=
                Except.ok.inj h
              rw [← hout]
              exact sameSkel_trans hskel1 (sameSkel_setCacheG g1 id t (fc vs))
            | none =>
              simp only [hcomp] at h
              have hout : ((0 : Int), setCacheG g1 id t 0, c1) = out :=
                Except.ok.inj h
              rw [← hout]
              exact sameSkel_trans hskel1 (sameSkel_setCacheG g1 id t 0)

theorem getValueAt_post (n : Nat) (g : LGraph) (id : String) (t : Int)
    (out : Int × LGraph × Nat) (h : getValueAt n g id t = .ok out) :
    ∃ nd, lookupD g id = some nd ∧
      (nd.type = .SOURCE → out.1 = nd.value.getD 0 ∧ out.2.1 = g) ∧
      (nd.type = .COMPUTED →
        ∃ nd', lookupD out.2.1 id = some nd' ∧ amGet nd'.cache t = some out.1) := by
  cases n with
  | zero => simp [getValueAt] at h
  | succ k =>
    rw [getValueAt] at h
    cases hn : lookupD g id with
    | none => simp [hn] at h
    | some nd =>
      simp only [hn] at h
      refine ⟨nd, rfl, ?_, ?_⟩
      · intro hty
        simp only [hty] at h
        have hout : (nd.value.getD 0, g, 0) = out := Except.ok.inj h
        rw [← hout]
        exact ⟨rfl, rfl⟩
      · intro hty
        simp only [hty] at h
        cases hc : amGet nd.cache t with
        | some w =>
          simp only [hc] at h
          have hout : (w, g, 0) = out := Except.ok.inj h
          rw [← hout]
          exact ⟨nd, hn, hc⟩
        | none =>
          simp only [hc,
            getOutgoingEdges_of_hasNode g id (hasNode_of_lookupD g id nd hn)] at h
          cases hfold : depsFold (fun g1 id1 => getValueAt k g1 id1 t)
              ((outgoingCore g id).filter (fun e => activeB e t)) g with
          | error err => simp [hfold] at h
          | ok out1 =>
            obtain ⟨vs, g1, c1⟩ := out1
            simp only [hfold] at h
            have hskel1 : SameSkel g g1 :=
              depsFold_skel _ (fun g0 id0 out0 h0 => getValueAt_skel k g0 id0 t out0 h0)
                _ g (vs, g1, c1) hfold
            obtain ⟨nd1, hn1, _⟩ := sameSkel_lookupD hskel1 id nd hn
            cases hcomp : nd.compute with
            | some fc =>
              simp only [hcomp] at h
              have hout : (fc vs, setCacheG g1 id t (fc vs), c1 + 1) = out :=
                Except.ok.inj h
              rw [← hout]
              refine ⟨{ nd1 with cache := amSet nd1.cache t (fc vs) }, ?_, ?_⟩
              · rw [lookupD_setCacheG_self, hn1]
                rfl
              · exact amGet_amSet_self ..
            | none =>
              simp only [hcomp] at h
              have hout : ((0 : Int), setCacheG g1 id t 0, c1) = out :=
                Except.ok.inj h
              rw [← hout]
              refine ⟨{ nd1 with cache := amSet nd1.cache t 0 }, ?_, ?_⟩
              · rw [lookupD_setCacheG_self, hn1]
                rfl
              · exact amGet_amSet_self ..

/-- C3. After one successful `getValueAt(n, t)` — of a source or a computed
node — a second `getValueAt(n, t)` with no intervening `invalidateCache` and no
intervening graph mutation (the second call runs on the state the first one
returned) yields the identical value, leaves the state untouched, and performs
no recomputation: its compute-invocation count is `0`, the value being read
from the node's per-timestamp cache (or the fixed source value). The second
call needs only one unit of fuel (`m + 1` for any `m`): it performs no
recursion. -/
theorem getValueAt_idempotent (n m : Nat) (g : LGraph) (id : String) (t : Int)
    (v : Int) (g' : LGraph) (c : Nat)
    (h : getValueAt n g id t = .ok (v, g', c)) :
    getValueAt (m + 1) g' id t = .ok (v, g', 0) := by
  have hskel : SameSkel g g' := getValueAt_skel n g id t (v, g', c) h
  obtain ⟨nd, hn, hsrc, hcomp⟩ := getValueAt_post n g id t (v, g', c) h
  obtain ⟨nd', hn', hsk⟩ := sameSkel_lookupD hskel id nd hn
  rw [getValueAt]
  cases hty : nd.type with
  | SOURCE =>
    obtain ⟨hv, _⟩ := hsrc hty
    have hty' : nd'.type = .SOURCE := by rw [← hsk.2.1, hty]
    simp only [hn', hty']
    have hval : nd'.value = nd.value := hsk.2.2.1.symm
    rw [hval, ← hv]
  | COMPUTED =>
    obtain ⟨nd2, hn2, hcache⟩ := hcomp hty
    have hnd12 : nd' = nd2 := by
      rw [hn'] at hn2
      exact Option.some.inj hn2
    have hty2 : nd2.type = .COMPUTED := by rw [← hnd12, ← hsk.2.1, hty]
    simp only [hn', hnd12, hty2, hcache]

/-- Witness for C3: on the repository's demo engine, evaluating `RendaTotal`
at `t = 5` once and then again on the resulting state returns the same value
with compute count `0` and an unchanged state. -/
theorem getValueAt_idempotent_witness :
    getValueAt 10 wEngRun.2.1 "RendaTotal" 5 = .ok (wEngRun.1, wEngRun.2.1, 0) :=
  getValueAt_idempotent 9 9 wEng "RendaTotal" 5 wEngRun.1 wEngRun.2.1 wEngRun.2.2
    (by rfl)

/-- Counterexample to C4 as stated: on the two-node cycle `cycG`
(`A→B` and `B→A`, both active at `t = 0`, as the conjuncts verify),
`getValueAt(A, 0)` does not fail with a `CyclicDependency` error — no such
error exists anywhere in the code — nor return a value: it recurses without
bound, exhausting even a 60-deep recursion budget. -/
theorem getValueAt_cycle_counterexample :
    (lazyActiveDeps cycG "A" 0).map (fun e => e.to_) = ["B"] ∧
    (lazyActiveDeps cycG "B" 0).map (fun e => e.to_) = ["A"] ∧
    getValueAt 60 cycG "A" 0 = .error .fuelExhausted :=
  ⟨by decide, by decide, rfl⟩

/-- C4 amended. On a graph where computed nodes `A` and `B` mutually depend on
each other — the single dependency of each active at `t` pointing at the other,
neither memoized at `t` (the spec's `A -> B -> A` scenario) — `getValueAt(A, t)`
never completes: it exhausts every finite recursion budget, the embedding's
rendering of the source's unguarded recursion crashing the stack; it raises no
`CyclicDependency` error, which does not exist in the code. -/
theorem getValueAt_cycle_diverges (g : LGraph) (a b : String) (t : Int)
    (ha : (lookupD g a).map (fun d => (d.type, amGet d.cache t)) =
      some (NodeType.COMPUTED, none))
    (hb : (lookupD g b).map (fun d => (d.type, amGet d.cache t)) =
      some (NodeType.COMPUTED, none))
    (hda : (lazyActiveDeps g a t).map (fun e => e.to_) = [b])
    (hdb : (lazyActiveDeps g b t).map (fun e => e.to_) = [a]) :
    ∀ n, getValueAt n g a t = .error .fuelExhausted := by
  have unpack : ∀ x : String,
      (lookupD g x).map (fun d => (d.type, amGet d.cache t)) =
        some (NodeType.COMPUTED, none) →
      ∃ nd, lookupD g x = some nd ∧ nd.type = .COMPUTED ∧
        amGet nd.cache t = none := by
    intro x hx
    cases hl : lookupD g x with
    | none => rw [hl] at hx; exact absurd hx (by simp)
    | some nd =>
      rw [hl] at hx
      have hinj := Option.some.inj hx
      exact ⟨nd, rfl, congrArg Prod.fst hinj, congrArg Prod.snd hinj⟩
  obtain ⟨nda, hna, htya, hca⟩ := unpack a ha
  obtain ⟨ndb, hnb, htyb, hcb⟩ := unpack b hb
  obtain ⟨ea, hdepsa, hea⟩ := map_eq_singleton_struct _ _ _ hda
  obtain ⟨eb, hdepsb, heb⟩ := map_eq_singleton_struct _ _ _ hdb
  have key : ∀ n, getValueAt n g a t = .error .fuelExhausted ∧
      getValueAt n g b t = .error .fuelExhausted := by
    intro n
    induction n with
    | zero => exact ⟨rfl, rfl⟩
    | succ k ih =>
      obtain ⟨iha, ihb⟩ := ih
      constructor
      · rw [getValueAt]
        simp only [hna, htya, hca,
          getOutgoingEdges_of_hasNode g a (hasNode_of_lookupD g a nda hna)]
        have hdeps' : (outgoingCore g a).filter (fun e => activeB e t) = [ea] :=
          hdepsa
        rw [hdeps', depsFold]
        simp only [hea, ihb]
      · rw [getValueAt]
        simp only [hnb, htyb, hcb,
          getOutgoingEdges_of_hasNode g b (hasNode_of_lookupD g b ndb hnb)]
        have hdeps' : (outgoingCore g b).filter (fun e => activeB e t) = [eb] :=
          hdepsb
        rw [hdeps', depsFold]
        simp only [heb, iha]
  exact fun n => (key n).1

/-- Witness for the amended C4: the concrete cycle `cycG` satisfies the shape
hypotheses, and evaluation at recursion budget `7` exhausts the budget. -/
theorem getValueAt_cycle_diverges_witness :
    getValueAt 7 cycG "A" 0 = .error .fuelExhausted :=
  getValueAt_cycle_diverges cycG "A" "B" 0 (by rfl) (by rfl)
    (by decide) (by decide) 7

end TemporalGraphSpec
